import Mathlib

/-!
Verification of the rgit repository (a minimal git-like object store in Rust)
against its natural-language specification.

Byte sequences are modelled as `List Nat` (one element per byte, values
0..255).  Rust `String`s are likewise modelled at byte granularity; the
`String::from_utf8` validation step is modelled by the executable validator
`utf8Valid`.  Rust operations that abort the process (slice/str indexing
panics, `chrono` out-of-range panics) are modelled by dedicated failure
values or by `Option.none`, with a comment at each site naming the panic.
-/

namespace Rgit

/-- ASCII whitespace, the bytes recognised by Rust `char::is_whitespace`
restricted to the ASCII range (the only range exercised here). -/
def isWs (b : Nat) : Bool :=
  b == 9 || b == 10 || b == 11 || b == 12 || b == 13 || b == 32

/-- Model of Rust `str::split_whitespace`: maximal runs of non-whitespace
bytes, with empty tokens discarded.  `acc` holds the current token reversed. -/
def splitWsAux : List Nat → List Nat → List (List Nat)
  | [], acc => if acc = [] then [] else [acc.reverse]
  | b :: rest, acc =>
    if isWs b then
      if acc = [] then splitWsAux rest [] else acc.reverse :: splitWsAux rest []
    else
      splitWsAux rest (b :: acc)

def splitWs (l : List Nat) : List (List Nat) :=
  splitWsAux l []

/-- Model of Rust `splitn(2, sep)`: the part before the first separator and,
when a separator occurs, the remainder after it. -/
def splitFirst (sep : Nat) : List Nat → List Nat × Option (List Nat)
  | [] => ([], none)
  | b :: rest =>
    if b = sep then ([], some rest)
    else
      let p := splitFirst sep rest
      (b :: p.1, p.2)

/-- Model of Rust `slice::split(sep)` / `str::split(sep)`: always at least one
chunk; a trailing separator yields a trailing empty chunk. -/
def splitAll (sep : Nat) : List Nat → List (List Nat)
  | [] => [[]]
  | b :: rest =>
    if b = sep then
      [] :: splitAll sep rest
    else
      match splitAll sep rest with
      | [] => [[b]]
      | c :: cs => (b :: c) :: cs

/-- `iter.splitn(2, ' ').skip(1).flatten`: everything after the first space,
or nothing when the input has no space. -/
def afterFirstSpace (l : List Nat) : List Nat :=
  match splitFirst 32 l with
  | (_, some r) => r
  | (_, none) => []

def trimLeft (l : List Nat) : List Nat :=
  l.dropWhile isWs

def trimRight (l : List Nat) : List Nat :=
  (l.reverse.dropWhile isWs).reverse

/-- Model of Rust `str::trim` (ASCII whitespace). -/
def trim (l : List Nat) : List Nat :=
  trimRight (trimLeft l)

def isAngle (b : Nat) : Bool :=
  b == 60 || b == 62

/-- Model of `trim_matches(|x| x == '<' || x == '>')`. -/
def trimAngle (l : List Nat) : List Nat :=
  ((l.dropWhile isAngle).reverse.dropWhile isAngle).reverse

/-- A UTF-8 continuation byte. -/
def isCont (b : Nat) : Bool :=
  128 ≤ b && b < 192

/-- One continuation byte of a 2-byte sequence. -/
def cont1 : List Nat → Option (List Nat)
  | c :: r => if isCont c then some r else none
  | [] => none

/-- Two continuation bytes of a 3-byte sequence (E0/ED range limits). -/
def cont2 (b : Nat) : List Nat → Option (List Nat)
  | c1 :: c2 :: r =>
    if isCont c1 && isCont c2 && (!(b == 224) || decide (160 ≤ c1)) &&
        (!(b == 237) || decide (c1 < 160)) then some r else none
  | _ => none

/-- Three continuation bytes of a 4-byte sequence (F0/F4 range limits). -/
def cont3 (b : Nat) : List Nat → Option (List Nat)
  | c1 :: c2 :: c3 :: r =>
    if isCont c1 && isCont c2 && isCont c3 && (!(b == 240) || decide (144 ≤ c1)) &&
        (!(b == 244) || decide (c1 < 144)) then some r else none
  | _ => none

/-- Consume one well-formed UTF-8 scalar, returning the remainder
(table from RFC 3629). -/
def utf8Step : List Nat → Option (List Nat)
  | [] => none
  | b :: rest =>
    if b < 128 then some rest
    else if b < 194 then none
    else if b < 224 then cont1 rest
    else if b < 240 then cont2 b rest
    else if b < 245 then cont3 b rest
    else none

/-- Fueled scalar-by-scalar validation; each step consumes at least one
byte, so fuel = length suffices. -/
def utf8ValidGo : Nat → List Nat → Bool
  | _, [] => true
  | 0, _ :: _ => false
  | fuel + 1, b :: rest =>
    match utf8Step (b :: rest) with
    | some r => utf8ValidGo fuel r
    | none => false

/-- Executable UTF-8 validity check, the model of `String::from_utf8`'s
validation. -/
def utf8Valid (l : List Nat) : Bool :=
  utf8ValidGo l.length l

/-- `String::from_utf8(bytes).ok()`: the same byte sequence on success. -/
def fromUtf8 (l : List Nat) : Option (List Nat) :=
  if utf8Valid l then some l else none

def isDigit (b : Nat) : Bool :=
  48 ≤ b && b ≤ 57

/-- Value of a decimal-digit byte string (fold as in positional notation). -/
def decToNat (l : List Nat) : Nat :=
  l.foldl (fun a b => a * 10 + (b - 48)) 0

/-- Digits-only parse: nonempty, all ASCII digits. -/
def parseNatCore (l : List Nat) : Option Nat :=
  if l ≠ [] ∧ l.all isDigit then some (decToNat l) else none

/-- Model of Rust `str::parse::<usize>` (64-bit): optional leading `+`,
digits, overflow rejected. -/
def parseUsize (l : List Nat) : Option Nat :=
  let core := match l with
    | 43 :: r => parseNatCore r
    | _ => parseNatCore l
  core.bind fun n => if n < 2 ^ 64 then some n else none

/-- Signed integer parse: optional `+`/`-`, digits. -/
def parseIntCore (l : List Nat) : Option Int :=
  match l with
  | 43 :: r => (parseNatCore r).map Int.ofNat
  | 45 :: r => (parseNatCore r).map fun n => -(Int.ofNat n)
  | _ => (parseNatCore l).map Int.ofNat

/-- Model of `str::parse::<i64>` with its overflow bounds. -/
def parseI64 (l : List Nat) : Option Int :=
  (parseIntCore l).bind fun n =>
    if -(2 ^ 63) ≤ n ∧ n ≤ 2 ^ 63 - 1 then some n else none

/-- Model of `str::parse::<i32>` with its overflow bounds. -/
def parseI32 (l : List Nat) : Option Int :=
  (parseIntCore l).bind fun n =>
    if -(2 ^ 31) ≤ n ∧ n ≤ 2 ^ 31 - 1 then some n else none

/-- Decimal rendering of a natural number, fuel-structured so that it
reduces definitionally (`natToDec n` uses fuel `n + 1`). -/
def natToDecGo : Nat → Nat → List Nat
  | 0, _ => []
  | fuel + 1, n =>
    if n < 10 then [48 + n]
    else natToDecGo fuel (n / 10) ++ [48 + n % 10]

/-- Decimal rendering of a natural number (Rust `{}` for unsigned). -/
def natToDec (n : Nat) : List Nat :=
  natToDecGo (n + 1) n

/-- Decimal rendering of an integer (Rust `{}` for signed). -/
def intToDec (n : Int) : List Nat :=
  if n < 0 then 45 :: natToDec n.natAbs else natToDec n.natAbs

/-- Rust `{:+05}` format: mandatory sign, zero-padded to width 5 in total. -/
def fmtPlus05 (n : Int) : List Nat :=
  let digs := natToDec n.natAbs
  let pad := List.replicate (4 - digs.length) 48
  (if n < 0 then [45] else [43]) ++ pad ++ digs

def hexDigit (n : Nat) : Nat :=
  if n < 10 then 48 + n else 87 + n

/-- Model of `hex::encode`: two lowercase hex bytes per input byte. -/
def hexEncode : List Nat → List Nat
  | [] => []
  | b :: rest => hexDigit (b / 16) :: hexDigit (b % 16) :: hexEncode rest

/-! ### Byte constants for the literal strings of the source -/

/-- Bytes of the string `blob`. -/
def bBlob : List Nat := [98, 108, 111, 98]

/-- Bytes of the string `tree`. -/
def bTree : List Nat := [116, 114, 101, 101]

/-- Bytes of the string `commit`. -/
def bCommit : List Nat := [99, 111, 109, 109, 105, 116]

/-- Bytes of the string `parent`. -/
def bParent : List Nat := [112, 97, 114, 101, 110, 116]

/-- Bytes of the string `author`. -/
def bAuthor : List Nat := [97, 117, 116, 104, 111, 114]

/-- Bytes of the string `comitter` (spelled as in the source). -/
def bComitter : List Nat := [99, 111, 109, 105, 116, 116, 101, 114]

/-- Bytes of the string `ref: `. -/
def bRefColon : List Nat := [114, 101, 102, 58, 32]

/-! ### src/object/mod.rs — ObjectType and GitObject -/

/-- `ObjectType` from src/object/mod.rs. -/
inductive ObjectType
  | blob
  | tree
  | commit
deriving DecidableEq

/-- `ObjectType::from(&str)`: first whitespace-separated token decides. -/
def objectTypeFrom (s : List Nat) : Option ObjectType :=
  match splitWs s with
  | [] => none
  | t :: _ =>
    if t = bBlob then some .blob
    else if t = bTree then some .tree
    else if t = bCommit then some .commit
    else none

/-! ### src/object/blob.rs -/

/-- `Blob { size, content }`.  `size` is the byte length of `content`. -/
structure Blob where
  size : Nat
  content : List Nat
deriving DecidableEq

/-- `Blob::from(bytes)`: UTF-8 validation only; the WHOLE input (header
included, when called from `GitObject::new`) becomes the content. -/
def blobFrom (bytes : List Nat) : Option Blob :=
  (fromUtf8 bytes).map fun c => { size := c.length, content := c }

/-- `Blob::as_bytes()`: `"blob <size>\0" ++ content`. -/
def Blob.asBytes (b : Blob) : List Nat :=
  bBlob ++ [32] ++ natToDec b.size ++ [0] ++ b.content

/-! ### src/object/tree.rs -/

/-- `tree::File { mode, name, hash }`. -/
structure File where
  mode : Nat
  name : List Nat
  hash : List Nat
deriving DecidableEq

/-- `tree::File::from(header, hash)`: header is UTF-8 decoded, then split on
whitespace; first token parsed as the mode, second token is the name. -/
def fileFrom (header hash : List Nat) : Option File :=
  (fromUtf8 header).bind fun s =>
    match splitWs s with
    | mt :: nt :: _ =>
      (parseUsize mt).map fun m => { mode := m, name := nt, hash := hash }
    | _ => none

/-- `tree::File::encode()`: `"<mode> <name>\0" ++ hash`. -/
def fileEncode (f : File) : List Nat :=
  natToDec f.mode ++ [32] ++ f.name ++ [0] ++ f.hash

/-- `Tree { contents }`. -/
structure Tree where
  contents : List File
deriving DecidableEq

/-- One step of the `try_fold` in `Tree::from`.  The source calls
`x.split_at(20)`, which PANICS when the chunk is shorter than 20 bytes;
that abort is modelled as `none`. -/
def treeStep (st : Option (List File × List Nat)) (x : List Nat) :
    Option (List File × List Nat) :=
  st.bind fun p =>
    if x.length < 20 then none
    else (fileFrom p.2 (x.take 20)).map fun f => (p.1 ++ [f], x.drop 20)

/-- `Tree::from(bytes)`: split on NUL; the first chunk seeds the rolling
header, each later chunk is 20 hash bytes followed by the next header. -/
def treeFrom (bytes : List Nat) : Option Tree :=
  match splitAll 0 bytes with
  | [] => none
  | header :: rest =>
    (rest.foldl treeStep (some ([], header))).map fun p => { contents := p.1 }

/-- `Tree::as_bytes()`. -/
def Tree.asBytes (t : Tree) : List Nat :=
  let content := (t.contents.map fileEncode).foldr (· ++ ·) []
  bTree ++ [32] ++ natToDec content.length ++ [0] ++ content

/-! ### src/object/commit.rs — User and Commit -/

/-- `User { name, email, ts }`: the timestamp is kept as unix seconds `ts`
plus the attached fixed offset's `local_minus_utc` seconds `tz`. -/
structure User where
  name : List Nat
  email : List Nat
  ts : Int
  tz : Int
deriving DecidableEq

/-- `chrono::FixedOffset::east(secs)`: `local_minus_utc = secs`; PANICS
outside `-86400 < secs < 86400`, modelled as `none`. -/
def mkEast (secs : Int) : Option Int :=
  if -86400 < secs ∧ secs < 86400 then some secs else none

/-- `chrono::FixedOffset::west(secs)`: `local_minus_utc = -secs`; PANICS
outside `-86400 < secs < 86400`, modelled as `none`. -/
def mkWest (secs : Int) : Option Int :=
  if -86400 < secs ∧ secs < 86400 then some (-secs) else none

/-- `chrono::Utc.timestamp(secs, 0)`: `timestamp_opt(..).unwrap()` PANICS
when `secs` lies outside `NaiveDateTime`'s representable range
`-8334632851200 ..= 8210298412799` (years -262144 to 262143); the abort is
modelled as `none`. -/
def mkTimestamp (secs : Int) : Option Int :=
  if -8334632851200 ≤ secs ∧ secs ≤ 8210298412799 then some secs else none

/-- `info.splitn(3, " ")`: up to three chunks, the third keeps its spaces. -/
def splitN3 (l : List Nat) : List Nat × Option (List Nat) × Option (List Nat) :=
  match splitFirst 32 l with
  | (c1, none) => (c1, none, none)
  | (c1, some r) =>
    match splitFirst 32 r with
    | (c2, r2) => (c1, some c2, r2)

/-- `User::from(bytes)` from src/object/commit.rs.  The timestamp is built
by `Utc.timestamp(secs, 0)` (whose out-of-range panic is modelled by
`mkTimestamp`); the offset computation reproduces
`if x < 0 { FixedOffset::west(x / 100 * 60 * 60) } else {
FixedOffset::east(x / 100 * 60 * 60) }` with Rust's truncating division. -/
def userFrom (bytes : List Nat) : Option User :=
  (fromUtf8 (bytes.takeWhile fun b => b != 60)).bind fun nameRaw =>
    (fromUtf8 (bytes.dropWhile fun b => b != 60)).bind fun info =>
      match splitN3 info with
      | (c1, c2, c3) =>
        let email := trimAngle c1
        ((c2.bind parseI64).bind mkTimestamp).bind fun ts =>
          (c3.bind parseI32).bind fun x =>
            (if x < 0 then mkWest (Int.tdiv x 100 * 60 * 60)
             else mkEast (Int.tdiv x 100 * 60 * 60)).map fun tz =>
              { name := trim nameRaw, email := email, ts := ts, tz := tz }

/-- `Commit` from src/object/commit.rs. -/
structure Commit where
  tree : List Nat
  parent : Option (List Nat)
  author : User
  comitter : User
  message : List Nat
deriving DecidableEq

/-- Tail of `Commit::from` after the author has been recovered: committer
line, then the next nonempty line (and only that line) as the message. -/
def commitFinish (treeHex : List Nat) (parent : Option (List Nat))
    (author : User) : List (List Nat) → Option Commit
  | [] => none
  | l4 :: rest4 =>
    (userFrom (afterFirstSpace l4)).bind fun comitter =>
      match rest4 with
      | [] => none
      | l5 :: _ =>
        (fromUtf8 l5).map fun msg =>
          { tree := treeHex, parent := parent, author := author,
            comitter := comitter, message := msg }

/-- `Commit::from(bytes)`: split on `\n`, DISCARD empty lines, then consume
tree line, optional parent line (with field shift), author, committer and
one message line.  When the second nonempty line contains no space the
source PANICS on `x[1]`; that abort is modelled as `none`. -/
def commitFrom (bytes : List Nat) : Option Commit :=
  let lines := (splitAll 10 bytes).filter fun x => x != ([] : List Nat)
  match lines with
  | [] => none
  | l1 :: rest1 =>
    (fromUtf8 (afterFirstSpace l1)).bind fun treeHex =>
      match rest1 with
      | [] =>
        -- `iter.next()` is `None`: parent = Err(empty), author is parsed
        -- from the empty reconstruction and fails
        (userFrom (afterFirstSpace [])).bind fun author =>
          commitFinish treeHex none author []
      | l2 :: rest2 =>
        match splitFirst 32 l2 with
        | (_, none) => none
        | (x0, some x1) =>
          let x0s := (fromUtf8 x0).getD []
          let x1s := (fromUtf8 x1).getD []
          if x0s = bParent then
            match rest2 with
            | [] => none
            | l3 :: rest3 =>
              (userFrom (afterFirstSpace l3)).bind fun author =>
                commitFinish treeHex (some x1s) author rest3
          else
            (userFrom (afterFirstSpace (x0s ++ [32] ++ x1s))).bind fun author =>
              commitFinish treeHex none author rest2

/-- `Display for User`: `<name> <<email>> <ts> <{:+05} of tz / 36>`. -/
def userBytes (u : User) : List Nat :=
  u.name ++ [32, 60] ++ u.email ++ [62, 32] ++ intToDec u.ts ++ [32] ++
    fmtPlus05 (Int.tdiv u.tz 36)

/-- `Display for Commit` (the payload of `as_bytes`). -/
def commitBody (c : Commit) : List Nat :=
  bTree ++ [32] ++ c.tree ++ [10] ++
    (match c.parent with
     | some p => bParent ++ [32] ++ p ++ [10]
     | none => []) ++
    bAuthor ++ [32] ++ userBytes c.author ++ [10] ++
    bComitter ++ [32] ++ userBytes c.comitter ++ [10, 10] ++
    c.message ++ [10]

/-- `Commit::as_bytes()`. -/
def Commit.asBytes (c : Commit) : List Nat :=
  bCommit ++ [32] ++ natToDec (commitBody c).length ++ [0] ++ commitBody c

/-- `GitObject`, the closed union over Blob, Tree, Commit. -/
inductive GitObject
  | blob (b : Blob)
  | tree (t : Tree)
  | commit (c : Commit)
deriving DecidableEq

/-- `GitObject::new(bytes)`: the pre-NUL segment picks the type, then the
FULL buffer (header included) is passed to the variant's `from`. -/
def gitObjectNew (bytes : List Nat) : Option GitObject :=
  let headerPart := bytes.takeWhile fun b => b != 0
  ((fromUtf8 headerPart).bind objectTypeFrom).bind fun t =>
    match t with
    | .blob => (blobFrom bytes).map GitObject.blob
    | .tree => (treeFrom bytes).map GitObject.tree
    | .commit => (commitFrom bytes).map GitObject.commit

/-- `GitObject::as_bytes()`. -/
def GitObject.asBytes : GitObject → List Nat
  | .blob b => b.asBytes
  | .tree t => t.asBytes
  | .commit c => c.asBytes

/-! ### src/index/mod.rs — Entry and the update-index logic of src/lib.rs -/

/-- Index `Entry` (timestamps kept as the raw second/nanosecond values the
source feeds to `Utc.timestamp`). -/
structure Entry where
  cTime : Nat
  cTimeN : Nat
  mTime : Nat
  mTimeN : Nat
  dev : Nat
  inode : Nat
  mode : Nat
  uid : Nat
  gid : Nat
  size : Nat
  hash : List Nat
  name : List Nat
deriving DecidableEq

/-- `Entry::size()`: `let size = 62 + name.len(); size + (8 - size % 8)` —
the on-disk span by which `Index::from` advances. -/
def Entry.entSize (e : Entry) : Nat :=
  let s := 62 + e.name.length
  s + (8 - s % 8)

/-- The entry-merge step of `Git::update_index` (src/lib.rs): retain the
entries differing from the new one in BOTH name and hash, append the new
entry. -/
def updateIndexEntries (entries : List Entry) (entry : Entry) : List Entry :=
  (entries.filter fun x => x.name != entry.name && x.hash != entry.hash) ++ [entry]

/-! ### src/lib.rs — RefStore -/

/-- Result of `Git::head_ref`.  `readErr` is the io error `read_to_string`
returns on non-UTF-8 content (ErrorKind::InvalidData); `fmtErr` is the
explicit `ErrorKind::InvalidData` return; `panicked` models the abort of
`refs.split_at(5)` when 5 exceeds the length or falls inside a UTF-8
character. -/
inductive HeadRefOut
  | path (p : List Nat)
  | fmtErr
  | readErr
  | panicked
deriving DecidableEq

/-- `Git::head_ref` as a function of the content of `.git/HEAD`. -/
def headRef (content : List Nat) : HeadRefOut :=
  if utf8Valid content then
    if content.length < 5 then .panicked
    else
      match content.drop 5 with
      | b :: _ =>
        if isCont b then .panicked
        else if content.take 5 = bRefColon then .path (trim (content.drop 5))
        else .fmtErr
      | [] =>
        if content.take 5 = bRefColon then .path (trim (content.drop 5))
        else .fmtErr
  else .readErr

/-- Errors of `Git::write_ref`. -/
inductive RefErr
  | notFound
  | badHandle
deriving DecidableEq

/-- Bytes of `.git/`. -/
def bDotGit : List Nat := [46, 103, 105, 116, 47]

/-- `current_dir().join(".git").join(path)`, relative to the repo root. -/
def refFilePath (p : List Nat) : List Nat := bDotGit ++ p

/-- First file whose path matches, in a flat path → content map. -/
def lookupFile (fs : List (List Nat × List Nat)) (k : List Nat) :
    Option (List Nat) :=
  match fs with
  | [] => none
  | (k', v) :: r => if k' = k then some v else lookupFile r k

/-- `Git::write_ref` (src/lib.rs): the source opens the ref file with
`File::open` — a READ-ONLY handle.  When the file is absent the open fails
with NotFound; when it exists, `write_all` on the read-only descriptor
fails (EBADF).  Either way nothing is ever written. -/
def writeRef (fs : List (List Nat × List Nat)) (p _hash : List Nat) :
    Except RefErr (List (List Nat × List Nat)) :=
  match lookupFile fs (refFilePath p) with
  | none => .error .notFound
  | some _ => .error .badHandle

/-- `Git::update_ref` just forwards to `write_ref`. -/
def updateRef (fs : List (List Nat × List Nat)) (p hash : List Nat) :
    Except RefErr (List (List Nat × List Nat)) :=
  writeRef fs p hash

/-! ### write_object (src/lib.rs and src/cmd.rs)

The SHA-1 digest and the zlib compressor are external crates, passed in as
function parameters `sha1` and `deflate`. -/

/-- What one `write_object` call produces: the shard path pieces and the
bytes written to the object file. -/
structure WriteOut where
  subDir : List Nat
  fileName : List Nat
  written : List Nat
deriving DecidableEq

/-- `cmd::write_object` (src/cmd.rs): hash and shard path as in the
original, but the function creates `Encoder::new(Vec::new())` and calls
`finish()` WITHOUT ever writing the object bytes into it — the compressor
input is the empty byte sequence. -/
def cmdWriteObject (sha1 deflate : List Nat → List Nat) (o : GitObject) :
    WriteOut :=
  let hash := hexEncode (sha1 (GitObject.asBytes o))
  { subDir := hash.take 2, fileName := hash.drop 2, written := deflate [] }

/-- `Git::write_object` (src/lib.rs): same path computation, but here
`encoder.write_all(&object.as_bytes())` feeds the encoded object to the
compressor before `finish()`. -/
def gitWriteObject (sha1 deflate : List Nat → List Nat) (o : GitObject) :
    WriteOut :=
  let hash := hexEncode (sha1 (GitObject.asBytes o))
  { subDir := hash.take 2, fileName := hash.drop 2,
    written := deflate (GitObject.asBytes o) }

/-! ### src/fs/inmem.rs — the in-memory filesystem -/

/-- `Entity`: a directory (HashMap modelled as an association list with
key-replacing insert) or a file. -/
inductive Entity
  | dir (entries : List (List Nat × Entity))
  | file (data : List Nat)

/-- HashMap `get`. -/
def lookupD (m : List (List Nat × Entity)) (k : List Nat) : Option Entity :=
  match m with
  | [] => none
  | (k', v) :: r => if k' = k then some v else lookupD r k

/-- HashMap `insert`: replaces the entry with the same key, else appends. -/
def insertD (m : List (List Nat × Entity)) (k : List Nat) (v : Entity) :
    List (List Nat × Entity) :=
  match m with
  | [] => [(k, v)]
  | (k', v') :: r => if k' = k then (k, v) :: r else (k', v') :: insertD r k v

/-- One `try_fold` step of `Entity::change_dir`: look the component up in a
directory; descending into a file is a NotFound error (`none`). -/
def cdStep (st : Option Entity) (c : List Nat) : Option Entity :=
  st.bind fun s =>
    match s with
    | .dir m => lookupD m c
    | .file _ => none

/-- `Entity::change_dir`: walk the components. -/
def changeDir (e : Entity) (comps : List (List Nat)) : Option Entity :=
  comps.foldl cdStep (some e)

/-- `Entity::read`: file data, or NotFound on a directory. -/
def entityRead : Entity → Option (List Nat)
  | .file d => some d
  | .dir _ => none

/-- `change_dir_mut` down `comps` followed by `Entity::write name data`,
with the mutation written back along the path. -/
def writeAt : Entity → List (List Nat) → List Nat → List Nat → Option Entity
  | e, [], name, data =>
    match e with
    | .dir m => some (.dir (insertD m name (.file data)))
    | .file _ => none
  | e, c :: rest, name, data =>
    match e with
    | .dir m =>
      (lookupD m c).bind fun sub =>
        (writeAt sub rest name data).map fun sub2 => .dir (insertD m c sub2)
    | .file _ => none

/-- `path.split("/")` (47 is `/`). -/
def splitSlash (p : List Nat) : List (List Nat) := splitAll 47 p

/-- `path_split`: all leading components and the final component. -/
def pathSplitM (p : List Nat) : List (List Nat) × List Nat :=
  let cs := splitSlash p
  (cs.dropLast, (cs.getLast?).getD [])

/-- `InMemFileSystem::write`: split off the file name, descend through the
directories, insert the file. -/
def fsWrite (root : Entity) (p data : List Nat) : Option Entity :=
  let pr := pathSplitM p
  writeAt root pr.1 pr.2 data

/-- `InMemFileSystem::read`: descend through all components, then read. -/
def fsRead (root : Entity) (p : List Nat) : Option (List Nat) :=
  (changeDir root (splitSlash p)).bind entityRead

/-- The seeded state of `InMemFileSystem::init`: `.git/objects`,
`.git/refs/heads`, and `.git/HEAD` containing `ref: refs/heads/master`. -/
def inMemInit : Entity :=
  .dir [([46, 103, 105, 116],  -- ".git"
    .dir [([111, 98, 106, 101, 99, 116, 115], .dir []),  -- "objects"
      ([114, 101, 102, 115],  -- "refs"
        .dir [([104, 101, 97, 100, 115], .dir [])]),  -- "heads"
      ([72, 69, 65, 68],  -- "HEAD"
        .file [114, 101, 102, 58, 32, 114, 101, 102, 115, 47, 104, 101,
          97, 100, 115, 47, 109, 97, 115, 116, 101, 114])])]

/-! ## Shared lemmas -/

theorem utf8Step_ascii {b : Nat} (r : List Nat) (hb : b < 128) :
    utf8Step (b :: r) = some r := by
  simp only [utf8Step]
  rw [if_pos hb]

theorem utf8Valid_of_ascii {l : List Nat} (h : ∀ b ∈ l, b < 128) :
    utf8Valid l = true := by
  induction l with
  | nil => rfl
  | cons b r ih =>
    have hb : b < 128 := h b (List.mem_cons_self b r)
    show utf8ValidGo (b :: r).length (b :: r) = true
    rw [List.length_cons]
    rw [utf8ValidGo]
    rw [utf8Step_ascii r hb]
    exact ih fun x hx => h x (List.mem_cons_of_mem b hx)

theorem fromUtf8_of_ascii {l : List Nat} (h : ∀ b ∈ l, b < 128) :
    fromUtf8 l = some l := by
  unfold fromUtf8
  rw [utf8Valid_of_ascii h]
  rfl

theorem splitFirst_sepfree {sep : Nat} {a : List Nat} (h : ∀ b ∈ a, b ≠ sep) :
    splitFirst sep a = (a, none) := by
  induction a with
  | nil => rfl
  | cons b r ih =>
    unfold splitFirst
    rw [if_neg (h b (List.mem_cons_self b r))]
    rw [ih fun x hx => h x (List.mem_cons_of_mem b hx)]

theorem splitFirst_append {sep : Nat} {a : List Nat} (r : List Nat)
    (h : ∀ b ∈ a, b ≠ sep) : splitFirst sep (a ++ sep :: r) = (a, some r) := by
  induction a with
  | nil => simp [splitFirst]
  | cons b tl ih =>
    rw [List.cons_append]
    unfold splitFirst
    rw [if_neg (h b (List.mem_cons_self b tl))]
    rw [ih fun x hx => h x (List.mem_cons_of_mem b hx)]

theorem afterFirstSpace_append {a : List Nat} (r : List Nat)
    (h : ∀ b ∈ a, b ≠ 32) : afterFirstSpace (a ++ 32 :: r) = r := by
  unfold afterFirstSpace
  rw [splitFirst_append r h]

theorem splitAll_ne_nil (sep : Nat) (l : List Nat) : splitAll sep l ≠ [] := by
  cases l with
  | nil => simp [splitAll]
  | cons b r =>
    unfold splitAll
    split
    · simp
    · split <;> simp

theorem splitAll_sepfree {sep : Nat} {a : List Nat} (h : ∀ b ∈ a, b ≠ sep) :
    splitAll sep a = [a] := by
  induction a with
  | nil => rfl
  | cons b r ih =>
    unfold splitAll
    rw [if_neg (h b (List.mem_cons_self b r))]
    rw [ih fun x hx => h x (List.mem_cons_of_mem b hx)]

theorem splitAll_append {sep : Nat} {a : List Nat} (r : List Nat)
    (h : ∀ b ∈ a, b ≠ sep) :
    splitAll sep (a ++ sep :: r) = a :: splitAll sep r := by
  induction a with
  | nil => simp [splitAll]
  | cons b tl ih =>
    have h1 : ¬b = sep := h b (List.mem_cons_self b tl)
    have h2 : splitAll sep (tl ++ sep :: r) = tl :: splitAll sep r :=
      ih fun x hx => h x (List.mem_cons_of_mem b hx)
    simp only [List.cons_append, splitAll, List.append_eq, h2, if_neg h1]

theorem isDigit_lt128 {b : Nat} (h : isDigit b = true) : b < 128 := by
  unfold isDigit at h
  simp only [Bool.and_eq_true, decide_eq_true_eq] at h
  omega

theorem parseNatCore_digits {l : List Nat} {n : Nat}
    (h : parseNatCore l = some n) : l ≠ [] ∧ ∀ b ∈ l, isDigit b = true := by
  unfold parseNatCore at h
  split at h
  · next hc => exact ⟨hc.1, fun b hb => List.all_eq_true.mp hc.2 b hb⟩
  · exact absurd h (by simp)

theorem parseI32_ascii {s : List Nat} {t : Int} (h : parseI32 s = some t) :
    ∀ b ∈ s, b < 128 := by
  unfold parseI32 at h
  cases hc : parseIntCore s with
  | none => rw [hc] at h; exact absurd h (by simp)
  | some v =>
    unfold parseIntCore at hc
    split at hc
    · next r =>
      intro b hb
      rcases List.mem_cons.mp hb with hb | hb
      · omega
      · rcases Option.map_eq_some'.mp hc with ⟨n, hn, _⟩
        exact isDigit_lt128 ((parseNatCore_digits hn).2 b hb)
    · next r =>
      intro b hb
      rcases List.mem_cons.mp hb with hb | hb
      · omega
      · rcases Option.map_eq_some'.mp hc with ⟨n, hn, _⟩
        exact isDigit_lt128 ((parseNatCore_digits hn).2 b hb)
    · intro b hb
      rcases Option.map_eq_some'.mp hc with ⟨n, hn, _⟩
      exact isDigit_lt128 ((parseNatCore_digits hn).2 b hb)

theorem parseUsize_bytes {l : List Nat} {m : Nat} (h : parseUsize l = some m) :
    l ≠ [] ∧ ∀ b ∈ l, b < 128 ∧ isWs b = false ∧ b ≠ 0 := by
  have digitFacts : ∀ b : Nat, isDigit b = true → b < 128 ∧ isWs b = false ∧ b ≠ 0 := by
    intro b hd
    unfold isDigit at hd
    simp only [Bool.and_eq_true, decide_eq_true_eq] at hd
    refine ⟨by omega, ?_, by omega⟩
    unfold isWs
    simp only [Bool.or_eq_false_iff, beq_eq_false_iff_ne, ne_eq]
    omega
  unfold parseUsize at h
  split at h
  · next r =>
    rcases Option.bind_eq_some.mp h with ⟨n, hn, _⟩
    have := parseNatCore_digits hn
    refine ⟨by simp, fun b hb => ?_⟩
    rcases List.mem_cons.mp hb with hb | hb
    · subst hb; exact ⟨by omega, by decide, by omega⟩
    · exact digitFacts b (this.2 b hb)
  · next hne =>
    rcases Option.bind_eq_some.mp h with ⟨n, hn, _⟩
    have := parseNatCore_digits hn
    exact ⟨this.1, fun b hb => digitFacts b (this.2 b hb)⟩

theorem natToDecGo_ne_nil (fuel n : Nat) : natToDecGo (fuel + 1) n ≠ [] := by
  unfold natToDecGo
  split
  · simp
  · simp

theorem natToDec_ne_nil (n : Nat) : natToDec n ≠ [] :=
  natToDecGo_ne_nil n n

/-! ## Claim C8 — index entry size -/

/-- C8: for an entry with an `n`-byte name, `Entry::size` is the least
multiple of 8 STRICTLY greater than `62 + n`; in particular, when `62 + n`
is already a multiple of 8 a full extra block of 8 padding bytes is added
(`size = 62 + n + 8`), exactly as the real index format requires a
NUL-terminated padded name. -/
theorem entry_size_next_multiple_of_eight (e : Entry) :
    (Entry.entSize e % 8 = 0 ∧ 62 + e.name.length < Entry.entSize e ∧
      Entry.entSize e ≤ 62 + e.name.length + 8) ∧
    ((62 + e.name.length) % 8 = 0 → Entry.entSize e = 62 + e.name.length + 8) := by
  have h : Entry.entSize e =
      62 + e.name.length + (8 - (62 + e.name.length) % 8) := rfl
  rw [h]
  omega

/-- A sample entry whose name has 2 bytes, so that `62 + n = 64` is already
a multiple of 8. -/
def entryAB : Entry :=
  { cTime := 0, cTimeN := 0, mTime := 0, mTimeN := 0, dev := 0, inode := 0,
    mode := 0, uid := 0, gid := 0, size := 0, hash := [1], name := [97, 98] }

/-- Witness for C8 at the 8-byte boundary: name of 2 bytes gives 72, not 64. -/
theorem entry_size_next_multiple_of_eight_witness :
    Entry.entSize entryAB = 62 + entryAB.name.length + 8 :=
  (entry_size_next_multiple_of_eight entryAB).2 (by decide)

/-! ## Claim C4 — update_index merge semantics -/

/-- C4: `update_index` keeps exactly the entries differing from the new one
in BOTH name and hash, in their original relative order (the survivors are
a sublist of the input), appends the new entry last, and thereby preserves
uniqueness of names. -/
theorem update_index_spec (i : List Entry) (e : Entry) :
    updateIndexEntries i e =
      (i.filter fun x => decide (x.name ≠ e.name ∧ x.hash ≠ e.hash)) ++ [e] ∧
    (∀ x, x ∈ updateIndexEntries i e ↔
      (x ∈ i ∧ x.name ≠ e.name ∧ x.hash ≠ e.hash) ∨ x = e) ∧
    (updateIndexEntries i e).dropLast.Sublist i ∧
    (i.Pairwise (fun a b => a.name ≠ b.name) →
      (updateIndexEntries i e).Pairwise fun a b => a.name ≠ b.name) := by
  have hpt : ∀ x : Entry,
      (x.name != e.name && x.hash != e.hash) = decide (x.name ≠ e.name ∧ x.hash ≠ e.hash) := by
    intro x
    rw [Bool.eq_iff_iff, Bool.and_eq_true, decide_eq_true_eq, bne_iff_ne,
      bne_iff_ne]
  have heq : updateIndexEntries i e =
      (i.filter fun x => decide (x.name ≠ e.name ∧ x.hash ≠ e.hash)) ++ [e] := by
    unfold updateIndexEntries
    rw [List.filter_congr fun x _ => hpt x]
  refine ⟨heq, ?_, ?_, ?_⟩
  · intro x
    rw [heq]
    simp only [List.mem_append, List.mem_filter, List.mem_singleton,
      decide_eq_true_eq]
  · rw [heq, List.dropLast_concat]
    exact List.filter_sublist i
  · intro hp
    rw [heq, List.pairwise_append]
    refine ⟨hp.sublist (List.filter_sublist i), List.pairwise_singleton _ _, ?_⟩
    intro x hx y hy
    rw [List.mem_singleton] at hy
    subst hy
    exact (of_decide_eq_true (List.mem_filter.mp hx).2).1

/-- A second sample entry sharing `entryAB`'s name but not its hash. -/
def entryAB2 : Entry :=
  { cTime := 0, cTimeN := 0, mTime := 0, mTimeN := 0, dev := 0, inode := 0,
    mode := 0, uid := 0, gid := 0, size := 0, hash := [2], name := [97, 98] }

/-- A third sample entry with a distinct name and hash. -/
def entryCD : Entry :=
  { cTime := 0, cTimeN := 0, mTime := 0, mTimeN := 0, dev := 0, inode := 0,
    mode := 0, uid := 0, gid := 0, size := 0, hash := [3], name := [99, 100] }

/-- Witness for C4: re-adding a file (same name, new hash) to the index
`[entryAB, entryCD]` keeps names unique. -/
theorem update_index_spec_witness :
    (updateIndexEntries [entryAB, entryCD] entryAB2).Pairwise
      fun a b => a.name ≠ b.name :=
  (update_index_spec [entryAB, entryCD] entryAB2).2.2.2 (by decide)

/-! ## Claim C2 — write_object feeds the compressor -/

/-- The object written in the C2 scenario: the blob decoded from the bytes
`blob` (as in the repository's own `git_object_new` test). -/
def c2obj : GitObject := .blob { size := 4, content := bBlob }

/-- C2 (code bug): `cmd::write_object` never calls `write_all` on the
encoder, so the bytes fed to the compressor are the EMPTY sequence and the
written file is `deflate([])`, not `deflate(encode(object))`; the sibling
`Git::write_object` in src/lib.rs does feed `encode(object)`, which is what
the claim requires. -/
theorem cmd_write_object_compresses_nothing (sha1 deflate : List Nat → List Nat)
    (hinj : Function.Injective deflate) :
    (cmdWriteObject sha1 deflate c2obj).written ≠ deflate (GitObject.asBytes c2obj) ∧
    (cmdWriteObject sha1 deflate c2obj).written = deflate [] ∧
    (gitWriteObject sha1 deflate c2obj).written = deflate (GitObject.asBytes c2obj) := by
  refine ⟨?_, rfl, rfl⟩
  intro h
  have h2 : ([] : List Nat) = GitObject.asBytes c2obj := hinj h
  have h3 : GitObject.asBytes c2obj ≠ [] := by decide
  exact h3 h2.symm

/-- Witness for C2 with the identity as the (injective) compressor:
the written bytes differ from the compressed encoding. -/
theorem cmd_write_object_compresses_nothing_witness :
    (cmdWriteObject id id c2obj).written ≠ id (GitObject.asBytes c2obj) :=
  (cmd_write_object_compresses_nothing id id fun _ _ h => h).1

/-! ## Claim C3 — update_ref can never succeed -/

/-- Bytes of `refs/heads/master`. -/
def bMasterRef : List Nat :=
  [114, 101, 102, 115, 47, 104, 101, 97, 100, 115, 47, 109, 97, 115, 116,
    101, 114]

/-- C3 (code bug): `Git::write_ref` opens the ref file with `File::open`
(read-only) and then calls `write_all`, so `update_ref` NEVER returns
success — on a fresh branch the open fails with NotFound, and on an
existing file the write on the read-only handle fails.  The file is never
updated, contradicting the claim that the ref file ends up containing the
hex hash. -/
theorem update_ref_always_fails (fs : List (List Nat × List Nat))
    (p h : List Nat) :
    (updateRef fs p h).isOk = false ∧
    updateRef [] bMasterRef h = Except.error RefErr.notFound := by
  constructor
  · unfold updateRef writeRef
    cases lookupFile fs (refFilePath p) <;> rfl
  · rfl

/-! ## Claim C9 — head_ref on arbitrary HEAD content -/

/-- C9 counterexample: on the 3-byte HEAD content `abc` the source panics
in `refs.split_at(5)` (byte index 5 out of bounds) instead of returning a
format error, refuting "returns a format error for ANY other content …
never aborting abnormally". -/
theorem head_ref_short_content_panics :
    headRef [97, 98, 99] = HeadRefOut.panicked ∧
    HeadRefOut.panicked ≠ HeadRefOut.fmtErr ∧
    HeadRefOut.panicked ≠ HeadRefOut.readErr := by decide

/-- C9 amended: restricted to ASCII HEAD contents of at least 5 bytes,
`head_ref` returns the trimmed suffix after the literal prefix `ref: `, and
an InvalidData error on any other such content. -/
theorem head_ref_spec (content : List Nat) (hA : ∀ b ∈ content, b < 128)
    (hL : 5 ≤ content.length) :
    headRef content =
      if content.take 5 = bRefColon then HeadRefOut.path (trim (content.drop 5))
      else HeadRefOut.fmtErr := by
  have hv : utf8Valid content = true := utf8Valid_of_ascii hA
  have hnl : ¬content.length < 5 := by omega
  unfold headRef
  simp only [hv, if_true]
  rw [if_neg hnl]
  cases hd : content.drop 5 with
  | nil => rfl
  | cons b tl =>
    have hb : b < 128 :=
      hA b (List.mem_of_mem_drop (by rw [hd]; exact List.mem_cons_self b tl))
    have hc : isCont b = false := by
      unfold isCont
      simp only [Bool.and_eq_false_iff, decide_eq_false_iff_not, not_le, not_lt]
      omega
    simp [hc]

/-- The seeded HEAD content `ref: refs/heads/master`. -/
def headContent : List Nat := bRefColon ++ bMasterRef

/-- Witness for C9 on the seeded HEAD content. -/
theorem head_ref_spec_witness :
    headRef headContent = HeadRefOut.path bMasterRef :=
  (head_ref_spec headContent (by decide) (by decide)).trans (by decide)

/-! ## Claim C1 — encode/decode round trip -/

/-- The canonical blob encoding `blob 9\0aaabbbccc` of the repository's own
Scenario-A content `aaabbbccc`. -/
def c1buf : List Nat :=
  [98, 108, 111, 98, 32, 57, 0, 97, 97, 97, 98, 98, 98, 99, 99, 99]

/-- C1 counterexample: decoding the canonical blob buffer succeeds, but
re-encoding does NOT return the buffer (`GitObject::new` hands the whole
buffer, header included, to `Blob::from`, so it is re-wrapped as
`blob 16\0blob 9\0aaabbbccc`). -/
theorem git_object_roundtrip_fails :
    (gitObjectNew c1buf).isSome = true ∧
    (gitObjectNew c1buf).map GitObject.asBytes ≠ some c1buf := by decide

/-- C1 amended: for every ASCII buffer whose pre-NUL segment's first
whitespace token is `blob`, decoding keeps the ENTIRE buffer (header
included) as the blob content, so re-encoding wraps the buffer in a fresh
header — `encode(decode(b)) = "blob <|b|>\0" ++ b`, which always differs
from `b`. -/
theorem git_object_blob_reencode (bytes : List Nat)
    (hA : ∀ b ∈ bytes, b < 128)
    (hT : (splitWs (bytes.takeWhile fun b => b != 0)).head? = some bBlob) :
    gitObjectNew bytes = some (.blob { size := bytes.length, content := bytes }) ∧
    (gitObjectNew bytes).map GitObject.asBytes =
      some (bBlob ++ [32] ++ natToDec bytes.length ++ [0] ++ bytes) ∧
    bBlob ++ [32] ++ natToDec bytes.length ++ [0] ++ bytes ≠ bytes := by
  have hHP : ∀ b ∈ bytes.takeWhile (fun b => b != 0), b < 128 :=
    fun b hb => hA b ((List.takeWhile_prefix _).subset hb)
  have hOT : objectTypeFrom (bytes.takeWhile fun b => b != 0) =
      some ObjectType.blob := by
    unfold objectTypeFrom
    cases hsw : splitWs (bytes.takeWhile fun b => b != 0) with
    | nil => rw [hsw] at hT; exact absurd hT (by simp)
    | cons tok rest =>
      rw [hsw] at hT
      simp only [List.head?_cons, Option.some.injEq] at hT
      subst hT
      simp
  have hBF : blobFrom bytes = some { size := bytes.length, content := bytes } := by
    unfold blobFrom
    rw [fromUtf8_of_ascii hA]
    rfl
  have h1 : gitObjectNew bytes =
      some (.blob { size := bytes.length, content := bytes }) := by
    simp only [gitObjectNew]
    rw [fromUtf8_of_ascii hHP, Option.some_bind, hOT, Option.some_bind, hBF]
    rfl
  refine ⟨h1, ?_, ?_⟩
  · rw [h1]
    rfl
  · intro hEq
    have hlen := congrArg List.length hEq
    have hd : 0 < (natToDec bytes.length).length :=
      List.length_pos.mpr (natToDec_ne_nil _)
    simp [List.length_append, bBlob] at hlen
    omega

/-- Witness for C1's amended statement at the repository's own test input
`blob`: re-encoding yields `blob 4\0blob`. -/
theorem git_object_blob_reencode_witness :
    gitObjectNew bBlob = some (.blob { size := bBlob.length, content := bBlob }) ∧
    (gitObjectNew bBlob).map GitObject.asBytes =
      some (bBlob ++ [32] ++ natToDec bBlob.length ++ [0] ++ bBlob) ∧
    bBlob ++ [32] ++ natToDec bBlob.length ++ [0] ++ bBlob ≠ bBlob :=
  git_object_blob_reencode bBlob (by decide) (by decide)

/-! ## Claim C6 — user-line timezone offset -/

/-- The user line `u <e> 0 -0700`. -/
def c6line : List Nat := [117, 32, 60, 101, 62, 32, 48, 32, 45, 48, 55, 48, 48]

/-- C6 counterexample: for the token `-0700` (t = -700) the claim demands
offset seconds `(t / 100) * 3600 = -25200`, but `FixedOffset::west` negates
its argument, so the code produces `+25200` (UTC+7 instead of UTC-7). -/
theorem user_offset_sign_flipped :
    userFrom c6line = some { name := [117], email := [101], ts := 0, tz := 25200 } ∧
    (25200 : Int) ≠ Int.tdiv (-700) 100 * 60 * 60 := by decide

/-- C6 amended: for any offset token `s` parsing to the integer `t` (with
the resulting seconds inside chrono's panic-free range), the parsed offset
is `(t / 100) * 3600` seconds for `t ≥ 0` but its NEGATION
`-((t / 100) * 3600)` for `t < 0`, both with truncating division. -/
theorem user_offset_spec (s : List Nat) (t : Int) (hs : parseI32 s = some t)
    (hlo : -86400 < Int.tdiv t 100 * 60 * 60)
    (hhi : Int.tdiv t 100 * 60 * 60 < 86400) :
    userFrom ([117, 32, 60, 101, 62, 32, 48, 32] ++ s) =
      some { name := [117], email := [101], ts := 0,
             tz := if t < 0 then -(Int.tdiv t 100 * 60 * 60)
                   else Int.tdiv t 100 * 60 * 60 } := by
  have hsA : ∀ b ∈ s, b < 128 := parseI32_ascii hs
  have hBytes : ([117, 32, 60, 101, 62, 32, 48, 32] : List Nat) ++ s =
      117 :: 32 :: 60 :: 101 :: 62 :: 32 :: 48 :: 32 :: s := by simp
  have hTake : List.takeWhile (fun b => b != 60)
      (117 :: 32 :: 60 :: 101 :: 62 :: 32 :: 48 :: 32 :: s) = [117, 32] := by
    simp [List.takeWhile_cons]
  have hDrop : List.dropWhile (fun b => b != 60)
      (117 :: 32 :: 60 :: 101 :: 62 :: 32 :: 48 :: 32 :: s) =
      60 :: 101 :: 62 :: 32 :: 48 :: 32 :: s := by
    simp [List.dropWhile_cons]
  have hInfoA : ∀ b ∈ (60 :: 101 :: 62 :: 32 :: 48 :: 32 :: s : List Nat),
      b < 128 := by
    intro b hb
    simp only [List.mem_cons] at hb
    rcases hb with h | h | h | h | h | h | h
    · omega
    · omega
    · omega
    · omega
    · omega
    · omega
    · exact hsA b h
  have hSF1 : splitFirst 32 (60 :: 101 :: 62 :: 32 :: 48 :: 32 :: s) =
      ([60, 101, 62], some (48 :: 32 :: s)) := by
    have h := @splitFirst_append 32 [60, 101, 62] (48 :: 32 :: s) (by decide)
    simpa using h
  have hSF2 : splitFirst 32 (48 :: 32 :: s) = ([48], some s) := by
    have h := @splitFirst_append 32 [48] s (by decide)
    simpa using h
  have hN3 : splitN3 (60 :: 101 :: 62 :: 32 :: 48 :: 32 :: s) =
      ([60, 101, 62], some [48], some s) := by
    simp only [splitN3, hSF1, hSF2]
  rw [hBytes]
  simp only [userFrom, hTake, hDrop, fromUtf8_of_ascii hInfoA,
    @fromUtf8_of_ascii [117, 32] (by intro b hb; fin_cases hb <;> omega),
    Option.some_bind, hN3, hs]
  have h48 : parseI64 [48] = some 0 := by decide
  have hT0 : mkTimestamp 0 = some 0 := by decide
  simp only [h48, hT0, Option.some_bind]
  by_cases ht : t < 0
  · simp only [if_pos ht, mkWest, if_pos (And.intro hlo hhi), Option.map_some]
    rfl
  · simp only [if_neg ht, mkEast, if_pos (And.intro hlo hhi), Option.map_some]
    rfl

/-- Witness for C6's amended statement on the token `900`
(`tz = 9 * 3600 = 32400` seconds east). -/
theorem user_offset_spec_witness :
    userFrom ([117, 32, 60, 101, 62, 32, 48, 32] ++ [57, 48, 48]) =
      some { name := [117], email := [101], ts := 0,
             tz := if (900 : Int) < 0 then -(Int.tdiv 900 100 * 60 * 60)
                   else Int.tdiv 900 100 * 60 * 60 } :=
  user_offset_spec [57, 48, 48] 900 (by decide) (by decide) (by decide)

/-! ## Claim C10 — in-memory filesystem write/read round trip -/

theorem lookupD_insertD (m : List (List Nat × Entity)) (k : List Nat)
    (v : Entity) : lookupD (insertD m k v) k = some v := by
  induction m with
  | nil => simp [insertD, lookupD]
  | cons p r ih =>
    obtain ⟨k', v'⟩ := p
    unfold insertD
    by_cases h : k' = k
    · rw [if_pos h]
      unfold lookupD
      rw [if_pos rfl]
    · rw [if_neg h]
      unfold lookupD
      rw [if_neg h]
      exact ih

theorem foldl_cdStep_none (cs : List (List Nat)) :
    List.foldl cdStep none cs = none := by
  induction cs with
  | nil => rfl
  | cons c cs ih =>
    rw [List.foldl_cons]
    exact ih

/-- After a successful `write_at`, walking back down the written path finds
exactly the written file. -/
theorem changeDir_after_writeAt (comps : List (List Nat)) (e e2 : Entity)
    (name data : List Nat) (hw : writeAt e comps name data = some e2) :
    changeDir e2 (comps ++ [name]) = some (.file data) := by
  induction comps generalizing e e2 with
  | nil =>
    cases e with
    | file d => exact absurd hw (by simp [writeAt])
    | dir m =>
      simp only [writeAt] at hw
      rw [Option.some.injEq] at hw
      subst hw
      unfold changeDir
      rw [List.nil_append, List.foldl_cons, List.foldl_nil]
      unfold cdStep
      rw [Option.some_bind]
      exact lookupD_insertD m name (.file data)
  | cons c rest ih =>
    cases e with
    | file d => exact absurd hw (by simp [writeAt])
    | dir m =>
      simp only [writeAt] at hw
      cases hl : lookupD m c with
      | none => rw [hl] at hw; exact absurd hw (by simp)
      | some sub =>
        rw [hl, Option.some_bind] at hw
        cases hsub : writeAt sub rest name data with
        | none => rw [hsub] at hw; exact absurd hw (by simp)
        | some sub2 =>
          rw [hsub, Option.map_some', Option.some.injEq] at hw
          subst hw
          rw [List.cons_append]
          unfold changeDir
          rw [List.foldl_cons]
          have h1 : cdStep (some (.dir (insertD m c sub2))) c = some sub2 := by
            unfold cdStep
            rw [Option.some_bind]
            exact lookupD_insertD m c sub2
          rw [h1]
          exact ih sub sub2 hsub

theorem pathSplit_recombine (p : List Nat) :
    (pathSplitM p).1 ++ [(pathSplitM p).2] = splitSlash p := by
  simp only [pathSplitM]
  have hne : splitSlash p ≠ [] := splitAll_ne_nil 47 p
  rw [List.getLast?_eq_getLast _ hne]
  simp only [Option.getD_some]
  exact List.dropLast_append_getLast hne

/-- C10: in the in-memory filesystem, a read performed right after a
successful write of the same path returns exactly the written data. -/
theorem inmem_write_read_roundtrip (root : Entity) (p data : List Nat)
    (root2 : Entity) (hw : fsWrite root p data = some root2) :
    fsRead root2 p = some data := by
  unfold fsWrite at hw
  unfold fsRead
  rw [← pathSplit_recombine p]
  rw [changeDir_after_writeAt _ _ _ _ _ hw]
  rfl

/-- Bytes of `.git/objects/hoge` (the path of the repository's own
`test_fs_write` test). -/
def c10path : List Nat :=
  [46, 103, 105, 116, 47, 111, 98, 106, 101, 99, 116, 115, 47, 104, 111,
    103, 101]

/-- Bytes of `hello`. -/
def c10data : List Nat := [104, 101, 108, 108, 111]

/-- Witness for C10: writing `hello` to `.git/objects/hoge` in the seeded
in-memory filesystem and reading it back returns `hello`. -/
theorem inmem_write_read_roundtrip_witness :
    fsRead ((fsWrite inMemInit c10path c10data).getD (.dir [])) c10path =
      some c10data := by
  cases hw : fsWrite inMemInit c10path c10data with
  | none =>
    have hs : (fsWrite inMemInit c10path c10data).isSome = true := rfl
    rw [hw] at hs
    exact absurd hs (by simp)
  | some r =>
    rw [Option.getD_some]
    exact inmem_write_read_roundtrip inMemInit c10path c10data r hw

/-! ## Claim C7 — tree decode of concatenated records -/

theorem splitWsAux_nows_append {a : List Nat} (l acc : List Nat)
    (h : ∀ x ∈ a, isWs x = false) :
    splitWsAux (a ++ l) acc = splitWsAux l (a.reverse ++ acc) := by
  induction a generalizing acc with
  | nil => simp
  | cons b tl ih =>
    have hb : isWs b = false := h b (List.mem_cons_self b tl)
    rw [List.cons_append]
    have h1 : splitWsAux (b :: (tl ++ l)) acc = splitWsAux (tl ++ l) (b :: acc) := by
      simp only [splitWsAux, hb, Bool.false_eq_true, if_false]
    rw [h1, ih (b :: acc) fun x hx => h x (List.mem_cons_of_mem b hx)]
    simp

theorem splitWs_single {a : List Nat} (ha : a ≠ [])
    (h : ∀ x ∈ a, isWs x = false) : splitWs a = [a] := by
  have h1 : splitWs a = splitWsAux (a ++ []) [] := by rw [List.append_nil]; rfl
  rw [h1, splitWsAux_nows_append [] [] h]
  unfold splitWsAux
  rw [List.append_nil]
  rw [if_neg (by simpa using ha)]
  simp

theorem splitWs_pair {a b : List Nat} (ha : a ≠ []) (hb : b ≠ [])
    (hna : ∀ x ∈ a, isWs x = false) (hnb : ∀ x ∈ b, isWs x = false) :
    splitWs (a ++ 32 :: b) = [a, b] := by
  have h1 : splitWs (a ++ 32 :: b) = splitWsAux (a ++ 32 :: b) [] := rfl
  rw [h1, splitWsAux_nows_append (32 :: b) [] hna]
  unfold splitWsAux
  rw [List.append_nil]
  have h32 : isWs 32 = true := by decide
  rw [h32]
  simp only [if_true]
  rw [if_neg (by simpa using ha)]
  rw [List.reverse_reverse]
  have h2 : splitWsAux b [] = splitWs b := rfl
  rw [h2, splitWs_single hb hnb]

/-- `tree::File::from` on a well-formed `<mode> <name>` header. -/
theorem fileFrom_wf {modeTok : List Nat} (name hash : List Nat) (m : Nat)
    (hm : parseUsize modeTok = some m) (hname : name ≠ [])
    (hnameF : ∀ b ∈ name, b < 128 ∧ isWs b = false ∧ b ≠ 0) :
    fileFrom (modeTok ++ 32 :: name) hash =
      some { mode := m, name := name, hash := hash } := by
  obtain ⟨hmne, hmb⟩ := parseUsize_bytes hm
  have hasc : ∀ b ∈ modeTok ++ 32 :: name, b < 128 := by
    intro b hbm
    rcases List.mem_append.mp hbm with h | h
    · exact (hmb b h).1
    · rcases List.mem_cons.mp h with h | h
      · omega
      · exact (hnameF b h).1
  unfold fileFrom
  rw [fromUtf8_of_ascii hasc, Option.some_bind]
  rw [splitWs_pair hmne hname (fun x hx => (hmb x hx).2.1)
    (fun x hx => (hnameF x hx).2.1)]
  simp only [hm, Option.map_some']

/-- A tree record given by its raw mode token, name and 20 hash bytes. -/
structure TRec where
  modeTok : List Nat
  name : List Nat
  hash : List Nat

/-- The on-disk bytes `<mode> <name>\0<hash>` of one record. -/
def recBytes (r : TRec) : List Nat :=
  r.modeTok ++ [32] ++ r.name ++ [0] ++ r.hash

/-- The header chunk `<mode> <name>` of one record. -/
def recHdr (r : TRec) : List Nat := r.modeTok ++ 32 :: r.name

/-- The `tree::File` a well-formed record decodes to. -/
def recFile (r : TRec) : File :=
  { mode := (parseUsize r.modeTok).getD 0, name := r.name, hash := r.hash }

/-- Well-formedness of one record: parsable mode, nonempty name without
whitespace or NUL (ASCII), and exactly 20 NUL-free hash bytes. -/
def wfRec (r : TRec) : Prop :=
  (parseUsize r.modeTok).isSome = true ∧ r.name ≠ [] ∧
  (∀ b ∈ r.name, b < 128 ∧ isWs b = false ∧ b ≠ 0) ∧
  r.hash.length = 20 ∧ ∀ b ∈ r.hash, b ≠ 0

instance (r : TRec) : Decidable (wfRec r) := by
  unfold wfRec
  infer_instance

/-- Concatenation of the records followed by trailing garbage `g`. -/
def payloadOf (rs : List TRec) (g : List Nat) : List Nat :=
  (rs.map recBytes).foldr (· ++ ·) [] ++ g

/-- The NUL-separated chunks following the first header chunk. -/
def midChunks : List TRec → List Nat → List (List Nat)
  | [], _ => []
  | [r], g => [r.hash ++ g]
  | r :: r2 :: rs, g => (r.hash ++ recHdr r2) :: midChunks (r2 :: rs) g

theorem recBytes_decomp (r : TRec) :
    recBytes r = recHdr r ++ 0 :: r.hash := by
  simp [recBytes, recHdr]

theorem recHdr_no_nul {r : TRec} (hr : wfRec r) : ∀ b ∈ recHdr r, b ≠ 0 := by
  obtain ⟨hm, -, hname, -, -⟩ := hr
  obtain ⟨m, hm'⟩ := Option.isSome_iff_exists.mp hm
  intro b hb
  rcases List.mem_append.mp hb with h | h
  · exact ((parseUsize_bytes hm').2 b h).2.2
  · rcases List.mem_cons.mp h with h | h
    · omega
    · exact (hname b h).2.2

theorem splitAll_payload_nil (g : List Nat) (hg : ∀ b ∈ g, b ≠ 0) :
    splitAll 0 (payloadOf [] g) = [g] := by
  have h : payloadOf [] g = g := by simp [payloadOf]
  rw [h]
  exact splitAll_sepfree hg

theorem splitAll_payload_cons (rs : List TRec) (r : TRec) (g : List Nat)
    (hr : wfRec r) (hrs : ∀ x ∈ rs, wfRec x) (hg : ∀ b ∈ g, b ≠ 0) :
    splitAll 0 (payloadOf (r :: rs) g) = recHdr r :: midChunks (r :: rs) g := by
  induction rs generalizing r with
  | nil =>
    have h1 : payloadOf [r] g = recHdr r ++ 0 :: (r.hash ++ g) := by
      simp [payloadOf, recBytes_decomp]
    rw [h1, splitAll_append _ (recHdr_no_nul hr)]
    have h2 : ∀ b ∈ r.hash ++ g, b ≠ 0 := by
      intro b hb
      rcases List.mem_append.mp hb with h | h
      · exact hr.2.2.2.2 b h
      · exact hg b h
    rw [splitAll_sepfree h2]
    rfl
  | cons r2 rs' ih =>
    have hr2 : wfRec r2 := hrs r2 (List.mem_cons_self r2 rs')
    have hrs' : ∀ x ∈ rs', wfRec x := fun x hx => hrs x (List.mem_cons_of_mem r2 hx)
    have h1 : payloadOf (r :: r2 :: rs') g =
        recHdr r ++ 0 :: ((r.hash ++ recHdr r2) ++ 0 ::
          (r2.hash ++ payloadOf rs' g)) := by
      simp [payloadOf, recBytes_decomp]
    rw [h1, splitAll_append _ (recHdr_no_nul hr)]
    have h2 : ∀ b ∈ r.hash ++ recHdr r2, b ≠ 0 := by
      intro b hb
      rcases List.mem_append.mp hb with h | h
      · exact hr.2.2.2.2 b h
      · exact recHdr_no_nul hr2 b h
    rw [splitAll_append _ h2]
    have h3 : payloadOf (r2 :: rs') g =
        recHdr r2 ++ 0 :: (r2.hash ++ payloadOf rs' g) := by
      simp [payloadOf, recBytes_decomp]
    have h4 := ih r2 hr2 hrs'
    rw [h3, splitAll_append _ (recHdr_no_nul hr2)] at h4
    rw [List.cons.injEq] at h4
    rw [h4.2]
    rfl

theorem fileFrom_recHdr {r : TRec} (hr : wfRec r) :
    fileFrom (recHdr r) r.hash = some (recFile r) := by
  obtain ⟨hm, hname, hnameF, -, -⟩ := hr
  obtain ⟨m, hm'⟩ := Option.isSome_iff_exists.mp hm
  rw [recHdr, fileFrom_wf r.name r.hash m hm' hname hnameF]
  unfold recFile
  rw [hm']
  rfl

theorem treeStep_record {r : TRec} (hr : wfRec r) (tail : List Nat)
    (acc : List File) :
    treeStep (some (acc, recHdr r)) (r.hash ++ tail) =
      some (acc ++ [recFile r], tail) := by
  have hlen : r.hash.length = 20 := hr.2.2.2.1
  unfold treeStep
  simp only [Option.some_bind]
  have hnl : ¬(r.hash ++ tail).length < 20 := by
    rw [List.length_append, hlen]
    omega
  rw [if_neg hnl]
  have htk : (r.hash ++ tail).take 20 = r.hash := by
    rw [← hlen]
    exact List.take_left r.hash tail
  have hdr2 : (r.hash ++ tail).drop 20 = tail := by
    rw [← hlen]
    exact List.drop_left r.hash tail
  rw [htk, hdr2, fileFrom_recHdr hr, Option.map_some']

theorem foldl_treeStep_mid (rs : List TRec) (r : TRec) (g : List Nat)
    (acc : List File) (hr : wfRec r) (hrs : ∀ x ∈ rs, wfRec x) :
    List.foldl treeStep (some (acc, recHdr r)) (midChunks (r :: rs) g) =
      some (acc ++ (r :: rs).map recFile, g) := by
  induction rs generalizing r acc with
  | nil =>
    have h1 : midChunks [r] g = [r.hash ++ g] := rfl
    rw [h1, List.foldl_cons, List.foldl_nil, treeStep_record hr g acc]
    simp
  | cons r2 rs' ih =>
    have hr2 : wfRec r2 := hrs r2 (List.mem_cons_self r2 rs')
    have hrs' : ∀ x ∈ rs', wfRec x :=
      fun x hx => hrs x (List.mem_cons_of_mem r2 hx)
    have h1 : midChunks (r :: r2 :: rs') g =
        (r.hash ++ recHdr r2) :: midChunks (r2 :: rs') g := rfl
    rw [h1, List.foldl_cons, treeStep_record hr (recHdr r2) acc]
    rw [ih r2 (acc ++ [recFile r]) hr2 hrs']
    simp

/-- C7 amended: a payload of records that are well formed in the strict
sense of `wfRec` — a parsable mode token, a nonempty whitespace- and
NUL-free ASCII name, and 20 NUL-FREE hash bytes — followed by NUL-free
trailing garbage decodes to exactly the records in order, the garbage
silently dropped.  The NUL restrictions on both the hashes and the garbage
are necessary: a NUL byte in either place makes the decode fail or abort,
dropping every entry (see the counterexample). -/
theorem tree_decode_records (rs : List TRec) (g : List Nat)
    (hrs : ∀ r ∈ rs, wfRec r) (hg : ∀ b ∈ g, b ≠ 0) :
    treeFrom (payloadOf rs g) = some { contents := rs.map recFile } := by
  cases rs with
  | nil =>
    unfold treeFrom
    rw [splitAll_payload_nil g hg]
    rfl
  | cons r rs' =>
    have h1 : treeFrom (payloadOf (r :: rs') g) =
        (List.foldl treeStep (some ([], recHdr r))
          (midChunks (r :: rs') g)).map fun p => { contents := p.1 } := by
      unfold treeFrom
      rw [splitAll_payload_cons rs' r g (hrs r (List.mem_cons_self r rs'))
        (fun x hx => hrs x (List.mem_cons_of_mem r hx)) hg]
    rw [h1, foldl_treeStep_mid rs' r g [] (hrs r (List.mem_cons_self r rs'))
      (fun x hx => hrs x (List.mem_cons_of_mem r hx))]
    simp

/-- One well-formed record `1 a\0` + 20 hash bytes. -/
def c7good : List Nat := [49, 32, 97, 0] ++ List.replicate 20 97

/-- The same record followed by trailing garbage CONTAINING a NUL
(`x\0` + 20 more bytes). -/
def c7bad : List Nat := c7good ++ [120, 0] ++ List.replicate 20 98

/-- C7 counterexample: NUL bytes ruin the decode even though the claim
asserts success with exactly the well-formed entries.  (1) The record
`1 a\0` + 20 NUL-free hash bytes decodes to one entry, with or without
NUL-free trailing garbage.  (2) Appending garbage that CONTAINS a NUL makes
the WHOLE decode fail (`File::from` on the garbage header propagates `None`
through the `try_fold`), dropping the entry.  (3) A single record whose
20-byte hash itself contains a NUL — the normal case for a binary SHA-1
digest — aborts `Tree::from` with no garbage at all: the split cuts the
hash at the NUL and the undersized chunk panics in `split_at(20)`
(modelled as `none`). -/
theorem tree_decode_nul_bytes_fail :
    (treeFrom c7good).map (fun t => t.contents.length) = some 1 ∧
    (treeFrom (c7good ++ [122, 122, 122])).map (fun t => t.contents.length) =
      some 1 ∧
    treeFrom c7bad = none ∧
    treeFrom ([49, 32, 97, 0] ++
      (List.replicate 9 97 ++ [0] ++ List.replicate 10 97)) = none := by
  decide

/-- First sample record `1 a` + hash `aaaaaaaaaaaaaaaaaaaa`. -/
def c7r1 : TRec := { modeTok := [49], name := [97], hash := List.replicate 20 97 }

/-- Second sample record `2 b` + hash `bbbbbbbbbbbbbbbbbbbb`. -/
def c7r2 : TRec := { modeTok := [50], name := [98], hash := List.replicate 20 98 }

/-- Witness for C7's amended statement (Scenario D shape): two concatenated
records, plus NUL-free garbage `z`, decode to exactly the two entries in
insertion order. -/
theorem tree_decode_records_witness :
    treeFrom (payloadOf [c7r1, c7r2] [122]) =
      some { contents := [c7r1, c7r2].map recFile } :=
  tree_decode_records [c7r1, c7r2] [122] (by decide) (by decide)

/-! ## Claim C5 — commit decode -/

/-- A commit body with a two-line message
(`tree 0`, author, committer, blank line, `x`, `y`). -/
def c5buf : List Nat :=
  [116, 114, 101, 101, 32, 48, 10,  -- "tree 0\n"
   97, 117, 116, 104, 111, 114, 32, 97, 32, 60, 98, 62, 32, 48, 32, 49, 48,
   10,  -- "author a <b> 0 10\n"
   99, 111, 109, 105, 116, 116, 101, 114, 32, 99, 32, 60, 100, 62, 32, 48,
   32, 49, 48, 10,  -- "comitter c <d> 0 10\n"
   10, 120, 10, 121]  -- "\nx\ny"

/-- C5 counterexample: the decoded message is only the FIRST nonempty line
`x` of the two-line message `x\ny`, not all remaining bytes after the blank
line (`Commit::from` splits on newlines, filters empty lines and calls
`iter.next()` exactly once for the message). -/
theorem commit_message_first_line_only :
    (commitFrom c5buf).map Commit.message = some [120] ∧
    (commitFrom c5buf).map Commit.message ≠ some [120, 10, 121] := by decide

/-- The optional `parent <hex>\n` line. -/
def parentLine : Option (List Nat) → List Nat
  | some p => bParent ++ [32] ++ p ++ [10]
  | none => []

/-- A well-formed commit body: tree line, optional parent line, author
line, committer line, blank line, first message line, then the rest. -/
def commitBuf (t : List Nat) (par : Option (List Nat))
    (ua uc m1 rest : List Nat) : List Nat :=
  bTree ++ [32] ++ t ++ [10] ++ parentLine par ++
    bAuthor ++ [32] ++ ua ++ [10] ++ bComitter ++ [32] ++ uc ++
    [10, 10] ++ m1 ++ [10] ++ rest

theorem splitAll_cons_sep (sep : Nat) (x : List Nat) :
    splitAll sep (sep :: x) = [] :: splitAll sep x := by
  simp [splitAll]

theorem line_ne10 {konst t : List Nat} (hk : ∀ b ∈ konst, b ≠ 10)
    (ht : ∀ b ∈ t, b < 128 ∧ b ≠ 10) : ∀ b ∈ konst ++ 32 :: t, b ≠ 10 := by
  intro b hb
  rcases List.mem_append.mp hb with h | h
  · exact hk b h
  · rcases List.mem_cons.mp h with h | h
    · omega
    · exact (ht b h).2

/-- C5 amended: for a well-formed body (ASCII, newline-free components,
nonempty first message line), `Commit::from` recovers the tree hex, the
optional parent (handling the field shift), both user records — and as the
message exactly the FIRST nonempty line after the committer line, rather
than all remaining bytes. -/
theorem commit_decode_spec (t ua uc m1 rest : List Nat)
    (par : Option (List Nat)) (au cu : User)
    (hT : ∀ b ∈ t, b < 128 ∧ b ≠ 10)
    (hP : ∀ p, par = some p → ∀ b ∈ p, b < 128 ∧ b ≠ 10)
    (hUA : ∀ b ∈ ua, b < 128 ∧ b ≠ 10) (hau : userFrom ua = some au)
    (hUC : ∀ b ∈ uc, b < 128 ∧ b ≠ 10) (hcu : userFrom uc = some cu)
    (hM : m1 ≠ []) (hMF : ∀ b ∈ m1, b < 128 ∧ b ≠ 10) :
    commitFrom (commitBuf t par ua uc m1 rest) =
      some { tree := t, parent := par, author := au, comitter := cu,
             message := m1 } := by
  have hTl : ∀ b ∈ bTree ++ 32 :: t, b ≠ 10 := line_ne10 (by decide) hT
  have hAl : ∀ b ∈ bAuthor ++ 32 :: ua, b ≠ 10 := line_ne10 (by decide) hUA
  have hCl : ∀ b ∈ bComitter ++ 32 :: uc, b ≠ 10 := line_ne10 (by decide) hUC
  have hM1l : ∀ b ∈ m1, b ≠ 10 := fun b hb => (hMF b hb).2
  have hTne : (bTree ++ 32 :: t) ≠ ([] : List Nat) := by simp [bTree]
  have hAne : (bAuthor ++ 32 :: ua) ≠ ([] : List Nat) := by simp [bAuthor]
  have hCne : (bComitter ++ 32 :: uc) ≠ ([] : List Nat) := by simp [bComitter]
  have hAFSt : afterFirstSpace (bTree ++ 32 :: t) = t :=
    afterFirstSpace_append t (by decide)
  have hAFSa : afterFirstSpace (bAuthor ++ 32 :: ua) = ua :=
    afterFirstSpace_append ua (by decide)
  have hAFSc : afterFirstSpace (bComitter ++ 32 :: uc) = uc :=
    afterFirstSpace_append uc (by decide)
  have hUt : fromUtf8 t = some t := fromUtf8_of_ascii fun b hb => (hT b hb).1
  have hUua : fromUtf8 ua = some ua := fromUtf8_of_ascii fun b hb => (hUA b hb).1
  have hUm : fromUtf8 m1 = some m1 := fromUtf8_of_ascii fun b hb => (hMF b hb).1
  cases par with
  | none =>
    have h0 : commitBuf t none ua uc m1 rest =
        (bTree ++ 32 :: t) ++ 10 :: ((bAuthor ++ 32 :: ua) ++ 10 ::
          ((bComitter ++ 32 :: uc) ++ 10 :: (10 :: (m1 ++ 10 :: rest)))) := by
      simp [commitBuf, parentLine]
    have hSA : splitAll 10 (commitBuf t none ua uc m1 rest) =
        (bTree ++ 32 :: t) :: (bAuthor ++ 32 :: ua) ::
          (bComitter ++ 32 :: uc) :: [] :: m1 :: splitAll 10 rest := by
      rw [h0, splitAll_append _ hTl, splitAll_append _ hAl,
        splitAll_append _ hCl, splitAll_cons_sep, splitAll_append _ hM1l]
    have hL : (splitAll 10 (commitBuf t none ua uc m1 rest)).filter
        (fun x => x != ([] : List Nat)) =
        (bTree ++ 32 :: t) :: (bAuthor ++ 32 :: ua) ::
          (bComitter ++ 32 :: uc) :: m1 ::
          (splitAll 10 rest).filter (fun x => x != ([] : List Nat)) := by
      rw [hSA]
      simp [List.filter_cons, hTne, hAne, hCne, hM]
    have hSF : splitFirst 32 (bAuthor ++ 32 :: ua) = (bAuthor, some ua) :=
      splitFirst_append ua (by decide)
    have hRe : bAuthor ++ [32] ++ ua = bAuthor ++ 32 :: ua := by simp
    simp only [commitFrom, hL, hAFSt, hUt, Option.some_bind, hSF]
    have hUa0 : (fromUtf8 bAuthor).getD [] = bAuthor := by decide
    have hUa1 : (fromUtf8 ua).getD [] = ua := by rw [hUua]; rfl
    simp only [hUa0, hUa1]
    rw [if_neg (by decide : ¬(bAuthor = bParent))]
    rw [hRe, hAFSa, hau, Option.some_bind]
    simp only [commitFinish, hAFSc, hcu, Option.some_bind, hUm,
      Option.map_some']
  | some p =>
    have hPp : ∀ b ∈ p, b < 128 ∧ b ≠ 10 := hP p rfl
    have hPl : ∀ b ∈ bParent ++ 32 :: p, b ≠ 10 := line_ne10 (by decide) hPp
    have h0 : commitBuf t (some p) ua uc m1 rest =
        (bTree ++ 32 :: t) ++ 10 :: ((bParent ++ 32 :: p) ++ 10 ::
          ((bAuthor ++ 32 :: ua) ++ 10 :: ((bComitter ++ 32 :: uc) ++ 10 ::
            (10 :: (m1 ++ 10 :: rest))))) := by
      simp [commitBuf, parentLine]
    have hSA : splitAll 10 (commitBuf t (some p) ua uc m1 rest) =
        (bTree ++ 32 :: t) :: (bParent ++ 32 :: p) :: (bAuthor ++ 32 :: ua) ::
          (bComitter ++ 32 :: uc) :: [] :: m1 :: splitAll 10 rest := by
      rw [h0, splitAll_append _ hTl, splitAll_append _ hPl,
        splitAll_append _ hAl, splitAll_append _ hCl, splitAll_cons_sep,
        splitAll_append _ hM1l]
    have hPne : (bParent ++ 32 :: p) ≠ ([] : List Nat) := by simp [bParent]
    have hL : (splitAll 10 (commitBuf t (some p) ua uc m1 rest)).filter
        (fun x => x != ([] : List Nat)) =
        (bTree ++ 32 :: t) :: (bParent ++ 32 :: p) :: (bAuthor ++ 32 :: ua) ::
          (bComitter ++ 32 :: uc) :: m1 ::
          (splitAll 10 rest).filter (fun x => x != ([] : List Nat)) := by
      rw [hSA]
      simp [List.filter_cons, hTne, hPne, hAne, hCne, hM]
    have hSF : splitFirst 32 (bParent ++ 32 :: p) = (bParent, some p) :=
      splitFirst_append p (by decide)
    have hUp0 : (fromUtf8 bParent).getD [] = bParent := by decide
    have hUp1 : (fromUtf8 p).getD [] = p := by
      rw [fromUtf8_of_ascii fun b hb => (hPp b hb).1]
      rfl
    simp only [commitFrom, hL, hAFSt, hUt, Option.some_bind, hSF, hUp0, hUp1]
    simp only [if_true]
    rw [hAFSa, hau, Option.some_bind]
    simp only [commitFinish, hAFSc, hcu, Option.some_bind, hUm,
      Option.map_some']

/-- Witness for C5's amended statement on the counterexample's components:
tree `0`, no parent, users `a <b> 0 10` / `c <d> 0 10`, message line `x`,
remainder `y`. -/
theorem commit_decode_spec_witness :
    commitFrom (commitBuf [48] none
        [97, 32, 60, 98, 62, 32, 48, 32, 49, 48]
        [99, 32, 60, 100, 62, 32, 48, 32, 49, 48] [120] [121]) =
      some { tree := [48], parent := none,
             author := { name := [97], email := [98], ts := 0, tz := 0 },
             comitter := { name := [99], email := [100], ts := 0, tz := 0 },
             message := [120] } :=
  commit_decode_spec [48] [97, 32, 60, 98, 62, 32, 48, 32, 49, 48]
    [99, 32, 60, 100, 62, 32, 48, 32, 49, 48] [120] [121] none
    { name := [97], email := [98], ts := 0, tz := 0 }
    { name := [99], email := [100], ts := 0, tz := 0 }
    (by decide) (by intro p hp; cases hp) (by decide) (by decide)
    (by decide) (by decide) (by decide) (by decide)

end Rgit
